import Mathlib

/-!
Verification development for the graph construction engine of the
codebase-rag repository: the JSON graph ingestor
(`codebase_rag/services/json_service.py`), the call processor
(`codebase_rag/parsers/call_processor.py`), the node text extractor
(`codebase_rag/node_text_extractor.py`) and the file enumerator
(`codebase_rag/utils/file_enumerator.py`), shallowly embedded in Lean.
Python dicts are modelled as insertion-ordered association lists,
Python's stable `sorted`/`list.sort` as `List.mergeSort`, and raised
exceptions as `Except` values.
-/

namespace CodebaseRag

/-- A scalar property value, as stored in a node/relationship property
dict (`types_defs.PropertyValue`). Python `None` is modelled as
`Option.none` around this type where the code distinguishes it. -/
inductive PVal where
  | s (v : String)
  | i (v : Int)
deriving DecidableEq, Repr

/-- A Python property dict: insertion-ordered keys, values possibly
`None` (`Option PVal`). Keys are unique in real dicts; lookups here
return the first matching key. -/
abbrev Props := List (String × Option PVal)

/-- `d.get(k)`: `none` when the key is absent, `some v` when present
(`v` may itself be Python `None`). -/
def propsGet (p : Props) (k : String) : Option (Option PVal) :=
  (p.find? (fun kv => kv.1 = k)).map (fun kv => kv.2)

/-- How Python renders a property value inside an f-string. -/
def pvStr : Option PVal → String
  | none => "None"
  | some (.s v) => v
  | some (.i v) => toString v

/-- `properties.get(k, "")` rendered into the node-key f-string. -/
def getKeyStr (p : Props) (k : String) : String :=
  match propsGet p k with
  | none => ""
  | some v => pvStr v

/-! ### Constants (`codebase_rag/constants.py`)

Modelled from the spec: `constants.py` is not part of the provided
sources; the `NodeLabel` members and their string values are taken from
the spec (§3, §4.4) and from the label strings used by the repository
tests (`Module`, `File`, `Function`, `Method`, `Class`, `Package`,
`Folder`, `Project`, `ExternalPackage`) plus the type-definition labels
named in `node_text_extractor.py` (`Interface`, `Enum`, `Type`,
`Union`). -/

def knownNodeLabels : List String :=
  ["Project", "Package", "Folder", "File", "Module", "Class", "Function",
   "Method", "Interface", "Enum", "Type", "Union", "ExternalPackage"]

/-- `PATH_BASED_LABELS = {FOLDER, FILE}` in `json_service.py`. -/
def pathBasedLabels : List String := ["Folder", "File"]

/-- `NAME_BASED_LABELS = {EXTERNAL_PACKAGE, PROJECT}` in `json_service.py`. -/
def nameBasedLabels : List String := ["ExternalPackage", "Project"]

/-! ### JsonFileIngestor (`codebase_rag/services/json_service.py`) -/

/-- `JsonFileIngestor._get_node_id_key`: the label-aware identity key.
Unknown labels (where `cs.NodeLabel(label)` raises `ValueError`) fall
back to `qualified_name` or `name`. -/
def getNodeIdKey (label : String) (properties : Props) : String :=
  if label ∈ knownNodeLabels then
    if label ∈ pathBasedLabels then
      label ++ ":" ++ getKeyStr properties "path"
    else if label ∈ nameBasedLabels then
      label ++ ":" ++ getKeyStr properties "name"
    else
      label ++ ":" ++ getKeyStr properties "qualified_name"
  else
    label ++ ":" ++
      (match propsGet properties "qualified_name" with
       | some v => pvStr v
       | none => getKeyStr properties "name")

/-- A stored node, as held in `JsonFileIngestor._nodes` and exported:
`{node_id, labels, properties}` with `None`-valued properties removed. -/
structure StoredNode where
  node_id : Nat
  labels : List String
  properties : List (String × PVal)
deriving DecidableEq, Repr

/-- `{k: v for k, v in properties.items() if v is not None}`. -/
def filterNonNull (p : Props) : List (String × PVal) :=
  p.filterMap (fun kv => kv.2.map (fun v => (kv.1, v)))

/-- A buffered relationship, as held in `JsonFileIngestor._relationships`:
endpoints are still symbolic `label:value` keys. -/
structure BufferedRel where
  from_key : String
  to_key : String
  rtype : String
  properties : List (String × Option PVal)
deriving DecidableEq, Repr

/-- A resolved relationship as exported by `flush_all`. -/
structure ResolvedRel where
  from_id : Nat
  to_id : Nat
  rtype : String
  properties : List (String × Option PVal)
deriving DecidableEq, Repr

/-- The mutable state of a `JsonFileIngestor`: the insertion-ordered
node table, the relationship buffer, the id counter and the
key-to-id lookup. All mutations happen under one lock, so the state
evolves by a sequence of atomic operations. -/
structure IngestorState where
  nodes : List (String × StoredNode)
  relationships : List BufferedRel
  node_counter : Nat
  node_id_lookup : List (String × Nat)
deriving DecidableEq, Repr

def initIngestor : IngestorState := ⟨[], [], 0, []⟩

def lookupId (lookup : List (String × Nat)) (k : String) : Option Nat :=
  (lookup.find? (fun kv => kv.1 = k)).map (fun kv => kv.2)

def containsKey (st : IngestorState) (k : String) : Bool :=
  (st.nodes.find? (fun kv => kv.1 = k)).isSome

/-- `JsonFileIngestor.ensure_node_batch`. -/
def ensureNodeBatch (st : IngestorState) (label : String) (properties : Props) :
    IngestorState :=
  let node_key := getNodeIdKey label properties
  if node_key = "" then st
  else if containsKey st node_key then st
  else
    { st with
      nodes := st.nodes ++
        [(node_key, ⟨st.node_counter, [label], filterNonNull properties⟩)],
      node_counter := st.node_counter + 1,
      node_id_lookup := st.node_id_lookup ++ [(node_key, st.node_counter)] }

/-- `JsonFileIngestor.ensure_relationship_batch`: buffers the
relationship under the symbolic `label:value` endpoint keys. -/
def ensureRelationshipBatch (st : IngestorState)
    (from_spec : String × String × Option PVal) (rel_type : String)
    (to_spec : String × String × Option PVal)
    (properties : Props) : IngestorState :=
  { st with
    relationships := st.relationships ++
      [{ from_key := from_spec.1 ++ ":" ++ pvStr from_spec.2.2,
         to_key := to_spec.1 ++ ":" ++ pvStr to_spec.2.2,
         rtype := rel_type,
         properties := properties }] }

/-- The `or`-chain `qualified_name or name or path` over stored
(non-null) properties, with `""` for an absent key; Python truthiness
makes `""` and `0` fall through to the next alternative. -/
def pvTruthy : PVal → Bool
  | .s v => v ≠ ""
  | .i v => v ≠ 0

def storedGet (n : StoredNode) (k : String) : PVal :=
  match n.properties.find? (fun kv => kv.1 = k) with
  | some kv => kv.2
  | none => .s ""

def pvOr (a b : PVal) : PVal := if pvTruthy a then a else b

/-- The node sort key used by `flush_all`:
`(labels[0], qualified_name or name or path)`. -/
def nodeSortKey (n : StoredNode) : String × PVal :=
  (n.labels.headD "",
   pvOr (pvOr (storedGet n "qualified_name") (storedGet n "name"))
     (storedGet n "path"))

/-- Comparison on property values: faithful to Python `<` on two
strings or two ints; Python raises `TypeError` on mixed comparisons,
which never occur for the string-valued sort keys — the model
totalizes by ordering ints before strings. -/
def pvLe : PVal → PVal → Bool
  | .i x, .i y => x ≤ y
  | .s x, .s y => x ≤ y
  | .i _, .s _ => true
  | .s _, .i _ => false

def nodeLe (a b : StoredNode) : Bool :=
  let ka := nodeSortKey a
  let kb := nodeSortKey b
  if ka.1 = kb.1 then pvLe ka.2 kb.2 else decide (ka.1 ≤ kb.1)

/-- The relationship sort key used by `flush_all`:
`(from_id, type, to_id)`. -/
def relLe (a b : ResolvedRel) : Bool :=
  if a.from_id = b.from_id then
    if a.rtype = b.rtype then a.to_id ≤ b.to_id
    else decide (a.rtype ≤ b.rtype)
  else a.from_id ≤ b.from_id

/-- Resolution of one buffered relationship at flush time: `none`
exactly when an endpoint key is missing from the id lookup. -/
def resolveRel (lookup : List (String × Nat)) (r : BufferedRel) :
    Option ResolvedRel :=
  match lookupId lookup r.from_key, lookupId lookup r.to_key with
  | some f, some t =>
      some { from_id := f, to_id := t, rtype := r.rtype,
             properties := r.properties }
  | _, _ => none

/-- The exported document written by `flush_all`:
`{nodes, relationships, metadata}`. -/
structure ExportedGraph where
  nodes : List StoredNode
  relationships : List ResolvedRel
  total_nodes : Nat
  total_relationships : Nat
  exported_at : String
deriving DecidableEq, Repr

/-- `JsonFileIngestor.flush_all`. `exportedAt` models
`datetime.now(UTC).isoformat()`, an input from the wall clock. -/
def flushAll (st : IngestorState) (exportedAt : String) : ExportedGraph :=
  let nodes_list := (st.nodes.map (fun kv => kv.2)).mergeSort nodeLe
  let resolved := st.relationships.filterMap (resolveRel st.node_id_lookup)
  let sorted_rels := resolved.mergeSort relLe
  { nodes := nodes_list,
    relationships := sorted_rels,
    total_nodes := nodes_list.length,
    total_relationships := sorted_rels.length,
    exported_at := exportedAt }

/-- One mutating operation on the shared ingestor, as issued by the
file-processing workers. -/
inductive IngestOp where
  | node (label : String) (properties : Props)
  | rel (from_spec : String × String × Option PVal) (rel_type : String)
      (to_spec : String × String × Option PVal) (properties : Props)
deriving DecidableEq, Repr

def applyOp (st : IngestorState) : IngestOp → IngestorState
  | .node label properties => ensureNodeBatch st label properties
  | .rel f rt ts p => ensureRelationshipBatch st f rt ts p

/-- Replays a registration sequence against a fresh ingestor. -/
def runOps : List IngestOp → IngestorState → IngestorState
  | [], st => st
  | op :: rest, st => runOps rest (applyOp st op)

/-- A full run: replay the registration sequence, then flush once with
the given wall-clock reading. -/
def runExport (ops : List IngestOp) (exportedAt : String) : ExportedGraph :=
  flushAll (runOps ops initIngestor) exportedAt

/-! ### Ingestor invariants -/

/-- Structural invariant of the ingestor state: node ids are the
positions 0,1,2,… of registration, the counter equals the table size,
the id lookup mirrors the node table, and identity keys are unique. -/
def IngestorInv (st : IngestorState) : Prop :=
  st.nodes.map (fun kv => kv.2.node_id) = List.range st.nodes.length ∧
  st.node_counter = st.nodes.length ∧
  st.node_id_lookup = st.nodes.map (fun kv => (kv.1, kv.2.node_id)) ∧
  (st.nodes.map (fun kv => kv.1)).Nodup

theorem getNodeIdKey_ne_empty (label : String) (p : Props) :
    getNodeIdKey label p ≠ "" := by
  have h : ∀ a b : String, a ++ ":" ++ b ≠ "" := by
    intro a b h
    have := congrArg String.length h
    simp [String.length_append] at this
    exact absurd this.1.2 (by decide)
  unfold getNodeIdKey
  split
  · split
    · exact h _ _
    · split
      · exact h _ _
      · exact h _ _
  · exact h _ _

theorem inv_initIngestor : IngestorInv initIngestor := by
  simp [IngestorInv, initIngestor]

theorem containsKey_false_not_mem {st : IngestorState} {k : String}
    (h : ¬ containsKey st k) : k ∉ st.nodes.map (fun kv => kv.1) := by
  intro hmem
  rcases List.mem_map.mp hmem with ⟨kv, hkv, hfst⟩
  apply h
  simp only [containsKey]
  rw [List.find?_isSome]
  exact ⟨kv, hkv, by simp [hfst]⟩

theorem inv_applyOp {st : IngestorState} (op : IngestOp)
    (h : IngestorInv st) : IngestorInv (applyOp st op) := by
  obtain ⟨hids, hcnt, hlkp, hnd⟩ := h
  cases op with
  | rel f rt ts p =>
      simpa [applyOp, ensureRelationshipBatch, IngestorInv] using
        ⟨hids, hcnt, hlkp, hnd⟩
  | node label p =>
      simp only [applyOp, ensureNodeBatch]
      split
      · exact ⟨hids, hcnt, hlkp, hnd⟩
      · split
        · exact ⟨hids, hcnt, hlkp, hnd⟩
        · rename_i hkey hct
          refine ⟨?_, ?_, ?_, ?_⟩
          · simp only [List.map_append, List.length_append, List.map_cons,
              List.map_nil, List.length_cons, List.length_nil]
            rw [hids, hcnt]
            simp [List.range_succ]
          · simp [hcnt]
          · simp [hlkp, hcnt, hids]
          · simp only [List.map_append, List.map_cons, List.map_nil]
            rw [List.nodup_append]
            exact ⟨hnd, List.nodup_singleton _, by
              intro a ha hb
              simp only [List.mem_singleton] at hb
              subst hb
              exact containsKey_false_not_mem hct ha⟩

theorem inv_runOps (ops : List IngestOp) :
    IngestorInv (runOps ops initIngestor) := by
  suffices h : ∀ st, IngestorInv st → IngestorInv (runOps ops st) from
    h _ inv_initIngestor
  induction ops with
  | nil => intro st h; exact h
  | cons op rest ih => intro st h; exact ih _ (inv_applyOp op h)

/-! ### C1: determinism of export -/

/-- Two registrations of the same node set, in the two orders two
worker schedules could produce. -/
def c1OpsA : List IngestOp :=
  [.node "Function" [("qualified_name", some (.s "proj.a"))],
   .node "Function" [("qualified_name", some (.s "proj.b"))]]

def c1OpsB : List IngestOp :=
  [.node "Function" [("qualified_name", some (.s "proj.b"))],
   .node "Function" [("qualified_name", some (.s "proj.a"))]]

/-- C1 counterexample: the export is not byte-identical under every
worker-scheduling/registration order, because node ids record
registration order; and the metadata `exported_at` field is the
flush-time clock, so even identical registration orders differ there. -/
theorem export_not_schedule_independent :
    runExport c1OpsA "2025-01-01T00:00:00+00:00" ≠
      runExport c1OpsB "2025-01-01T00:00:00+00:00" ∧
    (runExport c1OpsA "2025-01-01T00:00:00+00:00").exported_at ≠
      (runExport c1OpsA "2025-01-02T00:00:00+00:00").exported_at := by
  constructor
  · intro h
    have hA : (⟨0, ["Function"], [("qualified_name", PVal.s "proj.a")]⟩ :
        StoredNode) ∈ (runExport c1OpsA "2025-01-01T00:00:00+00:00").nodes := by
      simp only [runExport, flushAll, List.mem_mergeSort]
      decide
    have hB : (⟨0, ["Function"], [("qualified_name", PVal.s "proj.a")]⟩ :
        StoredNode) ∉ (runExport c1OpsB "2025-01-01T00:00:00+00:00").nodes := by
      simp only [runExport, flushAll, List.mem_mergeSort]
      decide
    rw [h] at hA
    exact hB hA
  · decide

/-- C1 (amended): for a fixed registration sequence the export is a
deterministic function of that sequence — the node list, relationship
list and totals of two runs replaying the same sequence coincide — and
the only run-dependent output field is `exported_at`, which equals the
flush-time clock reading. -/
theorem export_deterministic_per_sequence (ops : List IngestOp)
    (t₁ t₂ : String) :
    (runExport ops t₁).nodes = (runExport ops t₂).nodes ∧
    (runExport ops t₁).relationships = (runExport ops t₂).relationships ∧
    (runExport ops t₁).total_nodes = (runExport ops t₂).total_nodes ∧
    (runExport ops t₁).total_relationships =
      (runExport ops t₂).total_relationships ∧
    (runExport ops t₁).exported_at = t₁ :=
  ⟨rfl, rfl, rfl, rfl, rfl⟩

/-! ### C2: dedup invariant -/

/-- The first node registration in a sequence whose identity key is
`k` — the registration whose properties "win". -/
def firstReg : List IngestOp → String → Option (String × Props)
  | [], _ => none
  | .node l p :: rest, k =>
      if getNodeIdKey l p = k then some (l, p) else firstReg rest k
  | .rel _ _ _ _ :: rest, k => firstReg rest k

theorem ensureNodeBatch_noop {st : IngestorState} {label : String} {p : Props}
    (h : containsKey st (getNodeIdKey label p)) :
    ensureNodeBatch st label p = st := by
  simp [ensureNodeBatch, h]

theorem containsKey_applyOp_mono {st : IngestorState} {k : String}
    (op : IngestOp) (h : containsKey st k) : containsKey (applyOp st op) k := by
  cases op with
  | rel f rt ts p => simpa [applyOp, ensureRelationshipBatch, containsKey] using h
  | node label p =>
      simp only [applyOp, ensureNodeBatch]
      split
      · exact h
      · split
        · exact h
        · simp only [containsKey, List.find?_append, Option.isSome_or] at h ⊢
          simp [h]

theorem containsKey_runOps_mono {st : IngestorState} {k : String}
    (ops : List IngestOp) (h : containsKey st k) :
    containsKey (runOps ops st) k := by
  induction ops generalizing st with
  | nil => exact h
  | cons op rest ih => exact ih (containsKey_applyOp_mono op h)

theorem containsKey_applyOp_self (st : IngestorState) (label : String)
    (p : Props) :
    containsKey (applyOp st (.node label p)) (getNodeIdKey label p) := by
  simp only [applyOp, ensureNodeBatch]
  split
  · rename_i hfalse
    exact absurd hfalse (getNodeIdKey_ne_empty label p)
  · split
    · assumption
    · simp [containsKey, List.find?_append, Option.isSome_or, List.find?_cons]

theorem countP_le_one_of_nodup_keys {l : List (String × StoredNode)}
    (h : (l.map (fun kv => kv.1)).Nodup) (k : String) :
    l.countP (fun kv => kv.1 = k) ≤ 1 := by
  induction l with
  | nil => simp
  | cons a t ih =>
      simp only [List.map_cons, List.nodup_cons] at h
      obtain ⟨ha, ht⟩ := h
      rw [List.countP_cons]
      by_cases hak : a.1 = k
      · have hzero : t.countP (fun kv => kv.1 = k) = 0 := by
          rw [List.countP_eq_zero]
          intro kv hkv
          simp only [decide_eq_true_eq]
          intro h'
          exact ha (hak ▸ h' ▸ List.mem_map_of_mem (fun kv => kv.1) hkv)
        simp [hzero, hak]
      · simpa [hak] using ih ht

/-- Generalized first-registration lemma: a node found in the table
after replaying `ops` was either already present, or is the first
registration in `ops` with its key, stored with `None`-filtered
properties. -/
theorem find?_runOps_firstReg (ops : List IngestOp) (st₀ : IngestorState)
    (k : String) (kv : String × StoredNode)
    (h : (runOps ops st₀).nodes.find? (fun kv => kv.1 = k) = some kv) :
    st₀.nodes.find? (fun kv => kv.1 = k) = some kv ∨
    (st₀.nodes.find? (fun kv => kv.1 = k) = none ∧
     ∃ l₀ p₀, firstReg ops k = some (l₀, p₀) ∧ kv.1 = k ∧
       kv.2.labels = [l₀] ∧ kv.2.properties = filterNonNull p₀) := by
  induction ops generalizing st₀ with
  | nil => exact Or.inl h
  | cons op rest ih =>
      have hstep := ih (applyOp st₀ op) h
      cases op with
      | rel f rt ts p =>
          simp only [applyOp, ensureRelationshipBatch] at hstep
          simpa [firstReg] using hstep
      | node label p =>
          by_cases hct : containsKey st₀ (getNodeIdKey label p)
          · rw [show applyOp st₀ (.node label p) = st₀ from
              ensureNodeBatch_noop hct] at hstep
            cases hstep with
            | inl hl => exact Or.inl hl
            | inr hr =>
                obtain ⟨hnone, l₀, p₀, hfr, hrest⟩ := hr
                have hne : getNodeIdKey label p ≠ k := by
                  intro he
                  rw [he] at hct
                  simp [containsKey, hnone] at hct
                exact Or.inr ⟨hnone, l₀, p₀, by simpa [firstReg, hne] using hfr,
                  hrest⟩
          · have happ : (applyOp st₀ (.node label p)).nodes =
                st₀.nodes ++ [(getNodeIdKey label p,
                  ⟨st₀.node_counter, [label], filterNonNull p⟩)] := by
              simp only [applyOp, ensureNodeBatch]
              rw [if_neg (getNodeIdKey_ne_empty label p), if_neg hct]
            cases hstep with
            | inl hl =>
                rw [happ, List.find?_append] at hl
                cases hf : st₀.nodes.find? (fun kv => kv.1 = k) with
                | some v =>
                    rw [hf] at hl
                    simp only [Option.or_some] at hl
                    exact Or.inl hl
                | none =>
                    rw [hf, Option.none_or] at hl
                    by_cases hk : getNodeIdKey label p = k
                    · subst hk
                      simp only [List.find?_cons_of_pos, decide_eq_true_eq] at hl
                      right
                      refine ⟨rfl, label, p, by simp [firstReg], ?_⟩
                      have : (getNodeIdKey label p,
                          (⟨st₀.node_counter, [label], filterNonNull p⟩ :
                            StoredNode)) = kv := by
                        simpa using hl
                      rw [← this]
                      exact ⟨rfl, rfl, rfl⟩
                    · simp [hk] at hl
            | inr hr =>
                obtain ⟨hnone, l₀, p₀, hfr, hrest⟩ := hr
                rw [happ, List.find?_append] at hnone
                cases hf : st₀.nodes.find? (fun kv => kv.1 = k) with
                | some v => rw [hf] at hnone; simp at hnone
                | none =>
                    rw [hf, Option.none_or] at hnone
                    by_cases hk : getNodeIdKey label p = k
                    · subst hk
                      simp at hnone
                    · exact Or.inr ⟨rfl, l₀, p₀,
                        by simpa [firstReg, hk] using hfr, hrest⟩

theorem containsKey_of_mem_ops (ops : List IngestOp) (st : IngestorState) :
    ∀ label p, IngestOp.node label p ∈ ops →
      containsKey (runOps ops st) (getNodeIdKey label p) := by
  induction ops generalizing st with
  | nil => intro label p h; simp at h
  | cons op rest ih =>
      intro label p h
      rcases List.mem_cons.mp h with heq | hmem
      · subst heq
        exact containsKey_runOps_mono rest (containsKey_applyOp_self st label p)
      · exact ih (applyOp st op) label p hmem

/-- C2: deduplication invariant of the ingestor. For any registration
sequence: a further `ensure_node` whose key is already registered is a
no-op; at most one node exists per identity key; a found node records
the first registration with that key, keeping the non-`None`
properties of that registration only; every registration in the
sequence has a node under its key; and node ids are the fresh
sequential integers 0,1,2,… in registration order (so strictly
increasing and unique for the run, with the counter equal to the node
count). -/
theorem ensure_node_dedup_invariant (ops : List IngestOp) :
    (∀ label p, containsKey (runOps ops initIngestor) (getNodeIdKey label p) →
        ensureNodeBatch (runOps ops initIngestor) label p =
          runOps ops initIngestor) ∧
    (∀ k, (runOps ops initIngestor).nodes.countP (fun kv => kv.1 = k) ≤ 1) ∧
    (∀ k kv,
        (runOps ops initIngestor).nodes.find? (fun kv => kv.1 = k) = some kv →
        ∃ l₀ p₀, firstReg ops k = some (l₀, p₀) ∧ kv.1 = k ∧
          kv.2.labels = [l₀] ∧ kv.2.properties = filterNonNull p₀) ∧
    (∀ label p, IngestOp.node label p ∈ ops →
        containsKey (runOps ops initIngestor) (getNodeIdKey label p)) ∧
    (runOps ops initIngestor).nodes.map (fun kv => kv.2.node_id) =
      List.range (runOps ops initIngestor).nodes.length ∧
    (runOps ops initIngestor).node_counter =
      (runOps ops initIngestor).nodes.length := by
  obtain ⟨hids, hcnt, _hlkp, hnd⟩ := inv_runOps ops
  refine ⟨fun label p h => ensureNodeBatch_noop h,
    fun k => countP_le_one_of_nodup_keys hnd k,
    fun k kv h => ?_, fun label p h => ?_, hids, hcnt⟩
  · cases find?_runOps_firstReg ops initIngestor k kv h with
    | inl hl => simp [initIngestor] at hl
    | inr hr => exact hr.2
  · exact containsKey_of_mem_ops ops initIngestor label p h

def c2Props1 : Props :=
  [("qualified_name", some (.s "proj.mod.f")), ("start_line", some (.i 1)),
   ("decorators", none)]

def c2Props2 : Props :=
  [("qualified_name", some (.s "proj.mod.f")), ("start_line", some (.i 99))]

def c2Ops : List IngestOp :=
  [.node "Function" c2Props1, .node "Function" c2Props2]

def c2Stored : String × StoredNode :=
  ("Function:proj.mod.f",
   ⟨0, ["Function"],
    [("qualified_name", .s "proj.mod.f"), ("start_line", .i 1)]⟩)

/-- Witness for the dedup invariant: two registrations under the key
`Function:proj.mod.f`; the repeated `ensure_node` is a no-op and the
stored node keeps the first registration's non-null properties. -/
theorem ensure_node_dedup_invariant_witness :
    ensureNodeBatch (runOps c2Ops initIngestor) "Function" c2Props2 =
      runOps c2Ops initIngestor ∧
    (∃ l₀ p₀, firstReg c2Ops "Function:proj.mod.f" = some (l₀, p₀) ∧
      c2Stored.1 = "Function:proj.mod.f" ∧ c2Stored.2.labels = [l₀] ∧
      c2Stored.2.properties = filterNonNull p₀) :=
  ⟨(ensure_node_dedup_invariant c2Ops).1 "Function" c2Props2 (by decide),
   (ensure_node_dedup_invariant c2Ops).2.2.1 "Function:proj.mod.f" c2Stored
     (by decide)⟩

/-! ### C3: dangling-edge invariant -/

theorem lookupId_eq_find {st : IngestorState}
    (hlkp : st.node_id_lookup = st.nodes.map (fun kv => (kv.1, kv.2.node_id)))
    (k : String) :
    lookupId st.node_id_lookup k =
      (st.nodes.find? (fun kv => kv.1 = k)).map (fun kv => kv.2.node_id) := by
  rw [lookupId, hlkp]
  generalize st.nodes = l
  induction l with
  | nil => rfl
  | cons a t ih =>
      simp only [List.map_cons, List.find?_cons]
      by_cases h : a.1 = k
      · simp [h]
      · simpa [h] using ih

/-- C3: for every registration sequence, flush drops exactly the
buffered relationships with an unregistered endpoint key: such a
relationship resolves to nothing and never appears in the exported
relationships; a relationship with both endpoints registered resolves
to their integer ids and is kept; and the exported list is a
permutation of the resolved buffer (duplicates preserved — there is no
uniqueness constraint). Flush itself is a total function, so it always
completes. -/
theorem flush_drops_dangling (ops : List IngestOp) (t : String) :
    (∀ r ∈ (runOps ops initIngestor).relationships,
        (containsKey (runOps ops initIngestor) r.from_key = false ∨
         containsKey (runOps ops initIngestor) r.to_key = false) →
        resolveRel (runOps ops initIngestor).node_id_lookup r = none) ∧
    (∀ r ∈ (runOps ops initIngestor).relationships,
        containsKey (runOps ops initIngestor) r.from_key →
        containsKey (runOps ops initIngestor) r.to_key →
        ∃ rr, resolveRel (runOps ops initIngestor).node_id_lookup r = some rr ∧
          rr ∈ (runExport ops t).relationships) ∧
    ((runExport ops t).relationships).Perm
      ((runOps ops initIngestor).relationships.filterMap
        (resolveRel (runOps ops initIngestor).node_id_lookup)) := by
  obtain ⟨_hids, _hcnt, hlkp, _hnd⟩ := inv_runOps ops
  have hmem : ∀ rr, rr ∈ (runExport ops t).relationships ↔
      rr ∈ (runOps ops initIngestor).relationships.filterMap
        (resolveRel (runOps ops initIngestor).node_id_lookup) := by
    intro rr
    simp only [runExport, flushAll, List.mem_mergeSort]
  refine ⟨?_, ?_, ?_⟩
  · intro r _hr hdangling
    rw [resolveRel, lookupId_eq_find hlkp, lookupId_eq_find hlkp]
    cases hdangling with
    | inl h =>
        have : (runOps ops initIngestor).nodes.find?
            (fun kv => kv.1 = r.from_key) = none := by
          cases hf : (runOps ops initIngestor).nodes.find?
              (fun kv => kv.1 = r.from_key) with
          | none => rfl
          | some v => rw [containsKey, hf] at h; simp at h
        rw [this]
        rfl
    | inr h =>
        have : (runOps ops initIngestor).nodes.find?
            (fun kv => kv.1 = r.to_key) = none := by
          cases hf : (runOps ops initIngestor).nodes.find?
              (fun kv => kv.1 = r.to_key) with
          | none => rfl
          | some v => rw [containsKey, hf] at h; simp at h
        rw [this]
        cases ((runOps ops initIngestor).nodes.find?
            (fun kv => kv.1 = r.from_key)).map (fun kv => kv.2.node_id) <;> rfl
  · intro r hr hfrom hto
    rw [containsKey, Option.isSome_iff_exists] at hfrom hto
    obtain ⟨vf, hvf⟩ := hfrom
    obtain ⟨vt, hvt⟩ := hto
    refine ⟨ResolvedRel.mk vf.2.node_id vt.2.node_id r.rtype r.properties,
      ?_, ?_⟩
    · rw [resolveRel, lookupId_eq_find hlkp, lookupId_eq_find hlkp, hvf, hvt]
      rfl
    · rw [hmem]
      rw [List.mem_filterMap]
      refine ⟨r, hr, ?_⟩
      rw [resolveRel, lookupId_eq_find hlkp, lookupId_eq_find hlkp, hvf, hvt]
      rfl
  · exact List.mergeSort_perm
      ((runOps ops initIngestor).relationships.filterMap
        (resolveRel (runOps ops initIngestor).node_id_lookup)) relLe

def c3Ops : List IngestOp :=
  [.node "Function" [("qualified_name", some (.s "proj.f"))],
   .node "Function" [("qualified_name", some (.s "proj.g"))],
   .rel ("Function", "qualified_name", some (.s "proj.f")) "CALLS"
     ("Function", "qualified_name", some (.s "proj.g")) [],
   .rel ("Function", "qualified_name", some (.s "proj.f")) "CALLS"
     ("Function", "qualified_name", some (.s "proj.missing")) []]

def c3Dangling : BufferedRel :=
  { from_key := "Function:proj.f", to_key := "Function:proj.missing",
    rtype := "CALLS", properties := [] }

def c3Good : BufferedRel :=
  { from_key := "Function:proj.f", to_key := "Function:proj.g",
    rtype := "CALLS", properties := [] }

/-- Witness for the dangling-edge invariant: a buffered `CALLS` edge to
an unregistered callee resolves to nothing, while the edge between the
two registered functions is kept. -/
theorem flush_drops_dangling_witness :
    resolveRel (runOps c3Ops initIngestor).node_id_lookup c3Dangling = none ∧
    (∃ rr, resolveRel (runOps c3Ops initIngestor).node_id_lookup c3Good =
        some rr ∧ rr ∈ (runExport c3Ops "2025-01-01").relationships) :=
  ⟨(flush_drops_dangling c3Ops "2025-01-01").1 c3Dangling (by decide)
     (Or.inr (by decide)),
   (flush_drops_dangling c3Ops "2025-01-01").2.1 c3Good (by decide)
     (by decide) (by decide)⟩

/-! ### C8: flush output ordering -/

theorem pvLe_trans : ∀ a b c : PVal, pvLe a b → pvLe b c → pvLe a c := by
  intro a b c h1 h2
  cases a <;> cases b <;> cases c <;> simp_all [pvLe] <;>
    first
      | omega
      | exact le_trans (by assumption) (by assumption)

theorem pvLe_total : ∀ a b : PVal, pvLe a b || pvLe b a := by
  intro a b
  cases a <;> cases b <;> simp [pvLe] <;>
    first
      | omega
      | exact le_total _ _

theorem nodeLe_trans :
    ∀ a b c : StoredNode, nodeLe a b → nodeLe b c → nodeLe a c := by
  intro a b c h1 h2
  simp only [nodeLe] at h1 h2 ⊢
  by_cases hab : (nodeSortKey a).1 = (nodeSortKey b).1
  · by_cases hbc : (nodeSortKey b).1 = (nodeSortKey c).1
    · rw [if_pos hab] at h1
      rw [if_pos hbc] at h2
      rw [if_pos (hab.trans hbc)]
      exact pvLe_trans _ _ _ h1 h2
    · rw [if_pos hab] at h1
      rw [if_neg hbc] at h2
      have hac : ¬ (nodeSortKey a).1 = (nodeSortKey c).1 := by
        rw [hab]; exact hbc
      rw [if_neg hac, hab]
      exact h2
  · by_cases hbc : (nodeSortKey b).1 = (nodeSortKey c).1
    · rw [if_neg hab] at h1
      have hac : ¬ (nodeSortKey a).1 = (nodeSortKey c).1 := fun h =>
        hab (h.trans hbc.symm)
      rw [if_neg hac, ← hbc]
      exact h1
    · rw [if_neg hab] at h1
      rw [if_neg hbc] at h2
      simp only [decide_eq_true_eq] at h1 h2
      by_cases hac : (nodeSortKey a).1 = (nodeSortKey c).1
      · exact absurd (le_antisymm h1 (hac ▸ h2)) hab
      · rw [if_neg hac]
        simp only [decide_eq_true_eq]
        exact le_trans h1 h2

theorem nodeLe_total : ∀ a b : StoredNode, nodeLe a b || nodeLe b a := by
  intro a b
  simp only [nodeLe]
  by_cases hab : (nodeSortKey a).1 = (nodeSortKey b).1
  · rw [if_pos hab, if_pos hab.symm]
    exact pvLe_total _ _
  · rw [if_neg hab, if_neg (fun h => hab h.symm)]
    simp only [decide_eq_true_eq, Bool.or_eq_true]
    exact le_total _ _

theorem relLe_trans :
    ∀ a b c : ResolvedRel, relLe a b → relLe b c → relLe a c := by
  intro a b c h1 h2
  simp only [relLe] at h1 h2 ⊢
  by_cases hab : a.from_id = b.from_id
  · by_cases hbc : b.from_id = c.from_id
    · rw [if_pos hab] at h1
      rw [if_pos hbc] at h2
      rw [if_pos (hab.trans hbc)]
      by_cases tab : a.rtype = b.rtype
      · by_cases tbc : b.rtype = c.rtype
        · rw [if_pos tab] at h1
          rw [if_pos tbc] at h2
          rw [if_pos (tab.trans tbc)]
          simp only [decide_eq_true_eq] at h1 h2 ⊢
          omega
        · rw [if_pos tab] at h1
          rw [if_neg tbc] at h2
          rw [if_neg (fun h => tbc (tab.symm.trans h)), tab]
          exact h2
      · by_cases tbc : b.rtype = c.rtype
        · rw [if_neg tab] at h1
          rw [if_neg (fun h => tab (h.trans tbc.symm)), ← tbc]
          exact h1
        · rw [if_neg tab] at h1
          rw [if_neg tbc] at h2
          simp only [decide_eq_true_eq] at h1 h2
          by_cases tac : a.rtype = c.rtype
          · exact absurd (le_antisymm h1 (tac ▸ h2)) tab
          · rw [if_neg tac]
            simp only [decide_eq_true_eq]
            exact le_trans h1 h2
    · rw [if_pos hab] at h1
      rw [if_neg hbc] at h2
      rw [if_neg (fun h => hbc (hab.symm.trans h)), hab]
      exact h2
  · by_cases hbc : b.from_id = c.from_id
    · rw [if_neg hab] at h1
      rw [if_neg (fun h => hab (h.trans hbc.symm)), ← hbc]
      exact h1
    · rw [if_neg hab] at h1
      rw [if_neg hbc] at h2
      simp only [decide_eq_true_eq] at h1 h2
      by_cases hac : a.from_id = c.from_id
      · exact absurd (le_antisymm h1 (hac ▸ h2)) hab
      · rw [if_neg hac]
        simp only [decide_eq_true_eq]
        omega

theorem relLe_total : ∀ a b : ResolvedRel, relLe a b || relLe b a := by
  intro a b
  simp only [relLe]
  by_cases hab : a.from_id = b.from_id
  · rw [if_pos hab, if_pos hab.symm]
    by_cases tab : a.rtype = b.rtype
    · rw [if_pos tab, if_pos tab.symm]
      simp only [Bool.or_eq_true, decide_eq_true_eq]
      omega
    · rw [if_neg tab, if_neg (fun h => tab h.symm)]
      simp only [Bool.or_eq_true, decide_eq_true_eq]
      exact le_total _ _
  · rw [if_neg hab, if_neg (fun h => hab h.symm)]
    simp only [Bool.or_eq_true, decide_eq_true_eq]
    omega

/-- C8: for every registration sequence, the exported node list is
nondecreasing under the node sort key `(primary label,
qualified_name or name or path)` and the exported relationship list is
nondecreasing under `(from_id, type, to_id)` — `flush_all` sorts both,
so the sorted shape holds whatever order registrations arrived in. -/
theorem flush_output_sorted (ops : List IngestOp) (t : String) :
    List.Pairwise (fun a b => nodeLe a b = true) (runExport ops t).nodes ∧
    List.Pairwise (fun a b => relLe a b = true)
      (runExport ops t).relationships :=
  ⟨List.sorted_mergeSort nodeLe_trans nodeLe_total _,
   List.sorted_mergeSort relLe_trans relLe_total _⟩

/-! ### C4: per-file exception containment in CallProcessor
(`codebase_rag/parsers/call_processor.py`) -/

/-- `Path.relative_to`: succeeds with the remaining components when
`repoPath` is a prefix of `filePath`, otherwise raises `ValueError`.
Paths are modelled as component lists. -/
def relativeTo (filePath repoPath : List String) :
    Except String (List String) :=
  if repoPath.isPrefixOf filePath then .ok (filePath.drop repoPath.length)
  else .error "ValueError: path is not in the subpath of the repository root"

/-- `CallProcessor.process_calls_in_file`: the repository-relative path
is computed BEFORE the `try` block; everything after it — module
qualified-name computation, context building, call collection,
attribution and resolution, abstracted here as an arbitrary
possibly-raising computation `body` over the relative path — runs
inside `try/except Exception`, which logs and swallows any
exception. -/
def processCallsInFile (filePath repoPath : List String)
    (body : List String → Except String Unit) : Except String Unit :=
  match relativeTo filePath repoPath with
  | .error e => .error e
  | .ok relative_path =>
      match body relative_path with
      | .ok _ => .ok ()
      | .error _ => .ok ()

/-- C4 counterexample: `process_calls_in_file` is not exception-free
for every file path — `relative_to` runs before the `try` block, so a
file path outside the repository root raises `ValueError` to the
caller, even with a body that raises nothing. -/
theorem process_calls_raises_outside_root :
    processCallsInFile ["etc", "conf.py"] ["repo"] (fun _ => .ok ()) =
      .error
        "ValueError: path is not in the subpath of the repository root" :=
  rfl

/-- C4 (amended): for every file path under the repository root, and
every parsed tree, language and query set (any behaviour of the
processing body, including raising), `process_calls_in_file` swallows
the exception and returns normally, so the batch continues; only the
relative-path computation, which precedes the handler, can raise. -/
theorem process_calls_contains_exceptions (filePath repoPath : List String)
    (body : List String → Except String Unit)
    (h : repoPath.isPrefixOf filePath) :
    processCallsInFile filePath repoPath body = .ok () := by
  simp only [processCallsInFile, relativeTo, if_pos h]
  cases body (filePath.drop repoPath.length) <;> rfl

/-- Witness: a file under the root with a body that raises; the
exception is contained. -/
theorem process_calls_contains_exceptions_witness :
    processCallsInFile ["repo", "pkg", "mod.py"] ["repo"]
      (fun _ => .error "RuntimeError: parse failed") = .ok () :=
  process_calls_contains_exceptions ["repo", "pkg", "mod.py"] ["repo"]
    (fun _ => .error "RuntimeError: parse failed") (by decide)

/-! ### C7: call attribution uniqueness -/

/-- `CallContext` (`call_processor.py`): the attribution unit. The
caller AST node is identified by its byte-range key; attributed call
expressions are recorded by call id. -/
structure CallContext where
  caller_qn : String
  caller_type : String
  class_context : Option String := none
  call_nodes : List Nat := []
deriving DecidableEq, Repr

/-- The context index built by `_build_caller_contexts`: a dict keyed
by `(start_byte, end_byte)` — modelled as an association list with
unique keys. -/
abbrev Contexts := List ((Nat × Nat) × CallContext)

/-- A call expression, identified by a call id, together with the
byte-range keys of its ancestor chain (`.parent`, innermost first). -/
structure CallNode where
  call_id : Nat
  ancestor_keys : List (Nat × Nat)
deriving DecidableEq, Repr

/-- `CallProcessor._find_containing_context`: walk the ancestor chain
upward and return the first registered entry. -/
def findContainingContext (ancestor_keys : List (Nat × Nat))
    (contexts : Contexts) : Option ((Nat × Nat) × CallContext) :=
  match ancestor_keys with
  | [] => none
  | k :: rest =>
      match contexts.find? (fun kc => kc.1 = k) with
      | some kc => some kc
      | none => findContainingContext rest contexts

/-- Appending a call to the context stored under key `k` (the dict
mutation `context.call_nodes.append(call_node)`). -/
def appendCall (contexts : Contexts) (k : Nat × Nat) (cid : Nat) : Contexts :=
  contexts.map (fun kc =>
    if kc.1 = k then
      (kc.1, { kc.2 with call_nodes := kc.2.call_nodes ++ [cid] })
    else kc)

/-- The attribution loop of `_attribute_and_process_calls`: each call
is appended to the call list of its containing context, if any. -/
def attributeCalls (calls : List CallNode) (contexts : Contexts) : Contexts :=
  calls.foldl (fun ctxs call =>
    match findContainingContext call.ancestor_keys ctxs with
    | some kc => appendCall ctxs kc.1 call.call_id
    | none => ctxs) contexts

/-- Total number of times call id `c` has been attributed, over all
contexts. -/
def totalCalls (contexts : Contexts) (c : Nat) : Nat :=
  (contexts.map (fun kc => kc.2.call_nodes.count c)).sum

theorem find?_isSome_of_mem_keys {contexts : Contexts} {k : Nat × Nat}
    (h : k ∈ contexts.map (fun kc => kc.1)) :
    (contexts.find? (fun kc => kc.1 = k)).isSome := by
  rcases List.mem_map.mp h with ⟨kc, hkc, hfst⟩
  rw [List.find?_isSome]
  exact ⟨kc, hkc, by simp [hfst]⟩

theorem findContainingContext_isSome {contexts : Contexts}
    {rootKey : Nat × Nat} (hroot : rootKey ∈ contexts.map (fun kc => kc.1))
    (ancestor_keys : List (Nat × Nat)) (hchain : rootKey ∈ ancestor_keys) :
    (findContainingContext ancestor_keys contexts).isSome := by
  induction ancestor_keys with
  | nil => simp at hchain
  | cons k rest ih =>
      rw [findContainingContext]
      cases hf : contexts.find? (fun kc => kc.1 = k) with
      | some kc => rfl
      | none =>
          rcases List.mem_cons.mp hchain with heq | hmem
          · subst heq
            have := find?_isSome_of_mem_keys hroot
            rw [hf] at this
            simp at this
          · exact ih hmem

theorem findContainingContext_mem {contexts : Contexts}
    {ancestor_keys : List (Nat × Nat)} {kc : (Nat × Nat) × CallContext}
    (h : findContainingContext ancestor_keys contexts = some kc) :
    kc ∈ contexts := by
  induction ancestor_keys with
  | nil => simp [findContainingContext] at h
  | cons k rest ih =>
      rw [findContainingContext] at h
      cases hf : contexts.find? (fun kc => kc.1 = k) with
      | some kc' =>
          rw [hf] at h
          cases h
          exact List.mem_of_find?_eq_some hf
      | none =>
          rw [hf] at h
          exact ih h

theorem appendCall_not_mem {contexts : Contexts} {k : Nat × Nat}
    (h : k ∉ contexts.map (fun kc => kc.1)) (cid : Nat) :
    appendCall contexts k cid = contexts := by
  induction contexts with
  | nil => rfl
  | cons a t ih =>
      simp only [List.map_cons, List.mem_cons, not_or] at h
      rw [appendCall, List.map_cons, if_neg (fun he => h.1 he.symm)]
      have := ih h.2
      rw [appendCall] at this
      rw [this]

theorem totalCalls_appendCall {contexts : Contexts}
    (hnd : (contexts.map (fun kc => kc.1)).Nodup) {k : Nat × Nat}
    (hk : k ∈ contexts.map (fun kc => kc.1)) (cid c : Nat) :
    totalCalls (appendCall contexts k cid) c =
      totalCalls contexts c + (if c = cid then 1 else 0) := by
  induction contexts with
  | nil => simp at hk
  | cons a t ih =>
      simp only [List.map_cons, List.nodup_cons] at hnd
      obtain ⟨hna, hndt⟩ := hnd
      simp only [List.map_cons, List.mem_cons] at hk
      rcases hk with heq | hmem
      · rw [appendCall, List.map_cons, if_pos heq.symm]
        have hkt : k ∉ t.map (fun kc => kc.1) := heq ▸ hna
        have hrest : appendCall t k cid = t := appendCall_not_mem hkt cid
        rw [appendCall] at hrest
        rw [totalCalls, List.map_cons, hrest, List.sum_cons]
        rw [totalCalls, List.map_cons, List.sum_cons]
        simp only [List.count_append]
        have : List.count c [cid] = if c = cid then 1 else 0 := by
          by_cases hc : c = cid
          · simp [hc]
          · rw [if_neg hc, List.count_eq_zero]
            simp [hc]
        omega
      · by_cases heq : a.1 = k
        · exact absurd (heq ▸ hmem) hna
        · rw [appendCall, List.map_cons, if_neg heq]
          have := ih hndt hmem
          rw [appendCall] at this
          rw [totalCalls, List.map_cons, List.sum_cons,
            totalCalls, List.map_cons, List.sum_cons]
          rw [totalCalls, totalCalls] at this
          omega

/-- C7: attribution assigns every call to exactly one caller context.
Given a context index with unique byte-range keys containing the
module root's key, and a call whose ancestor chain reaches the root
(any well-formed tree): the walk finds a context (never zero — the
innermost registered ancestor, the module as fallback), the found
entry is the first registered ancestor key (innermost), and
attributing the call adds it to exactly one context's call list. -/
theorem call_attribution_unique (contexts : Contexts)
    (hnd : (contexts.map (fun kc => kc.1)).Nodup) (rootKey : Nat × Nat)
    (hroot : rootKey ∈ contexts.map (fun kc => kc.1)) (call : CallNode)
    (hchain : rootKey ∈ call.ancestor_keys) :
    (∃ kc, findContainingContext call.ancestor_keys contexts = some kc ∧
      kc ∈ contexts) ∧
    (∀ pre k post, call.ancestor_keys = pre ++ k :: post →
      (∀ k' ∈ pre, contexts.find? (fun kc => kc.1 = k') = none) →
      ∀ kc, contexts.find? (fun kc => kc.1 = k) = some kc →
        findContainingContext call.ancestor_keys contexts = some kc) ∧
    (∀ c, totalCalls (attributeCalls [call] contexts) c =
      totalCalls contexts c + (if c = call.call_id then 1 else 0)) := by
  have hsome := findContainingContext_isSome hroot call.ancestor_keys hchain
  rw [Option.isSome_iff_exists] at hsome
  obtain ⟨kc, hkc⟩ := hsome
  refine ⟨⟨kc, hkc, findContainingContext_mem hkc⟩, ?_, ?_⟩
  · intro pre k post hsplit hpre kc' hk
    rw [hsplit]
    clear hsplit hchain hkc
    induction pre with
    | nil =>
        rw [List.nil_append, findContainingContext, hk]
    | cons p rest ih =>
        rw [List.cons_append, findContainingContext,
          hpre p (List.mem_cons_self p rest)]
        exact ih (fun k' h => hpre k' (List.mem_cons_of_mem p h))
  · intro c
    rw [attributeCalls, List.foldl_cons, List.foldl_nil, hkc]
    have hmemk : kc.1 ∈ contexts.map (fun kc => kc.1) :=
      List.mem_map_of_mem (fun kc => kc.1) (findContainingContext_mem hkc)
    exact totalCalls_appendCall hnd hmemk call.call_id c

def c7Contexts : Contexts :=
  [((0, 200), { caller_qn := "proj.mod", caller_type := "Module" }),
   ((10, 80), { caller_qn := "proj.mod.f", caller_type := "Function" }),
   ((90, 150), { caller_qn := "proj.mod.C.m", caller_type := "Method",
                 class_context := some "proj.mod.C" })]

def c7Call : CallNode :=
  { call_id := 7, ancestor_keys := [(20, 40), (10, 80), (0, 200)] }

/-- Witness: in a file with a module context, a function context and a
method context, a call inside the function is attributed exactly once,
to the function (its innermost registered ancestor). -/
theorem call_attribution_unique_witness :
    (∃ kc, findContainingContext c7Call.ancestor_keys c7Contexts = some kc ∧
      kc ∈ c7Contexts) ∧
    totalCalls (attributeCalls [c7Call] c7Contexts) 7 =
      totalCalls c7Contexts 7 + 1 := by
  have h := call_attribution_unique c7Contexts (by decide) (0, 200)
    (by decide) c7Call (by decide)
  exact ⟨h.1, by simpa using h.2.2 7⟩

/-! ### C10: FileEnumerator always keeps the repository root
(`codebase_rag/utils/file_enumerator.py`) -/

/-- One entry produced by `repo_path.rglob("*")`, with its filesystem
classification. -/
structure WalkEntry where
  path : String
  is_dir : Bool
  is_file : Bool
deriving DecidableEq, Repr

/-- The `FileEnumerator` instance state. -/
structure FileEnumeratorState where
  repo_path : String
  dirs : List String
  files : List String
  enumerated : Bool
deriving DecidableEq, Repr

def initEnumerator (repo : String) : FileEnumeratorState :=
  { repo_path := repo, dirs := [], files := [], enumerated := false }

def strLe (a b : String) : Bool := a ≤ b

/-- `FileEnumerator.enumerate`: no-op when already enumerated;
otherwise seed the directory set with the repository root itself
(never passed to `should_skip_path`), walk the (pre-sorted) entries
applying the skip predicate, classify `is_dir` / `elif is_file`, and
store the sorted directory set and the file list. -/
def enumerate (st : FileEnumeratorState) (walk : List WalkEntry)
    (skip : WalkEntry → Bool) : FileEnumeratorState :=
  if st.enumerated then st
  else
    let kept := walk.filter (fun e => !skip e)
    let dirSet :=
      (st.repo_path :: (kept.filter (fun e => e.is_dir)).map
        (fun e => e.path)).dedup
    { st with
      dirs := dirSet.mergeSort strLe,
      files := (kept.filter (fun e => !e.is_dir && e.is_file)).map
        (fun e => e.path),
      enumerated := true }

/-- A sequence of `enumerate` calls against one enumerator instance. -/
def runEnumerate (repo : String)
    (calls : List (List WalkEntry × (WalkEntry → Bool))) :
    FileEnumeratorState :=
  calls.foldl (fun st c => enumerate st c.1 c.2) (initEnumerator repo)

theorem enumerate_of_enumerated {st : FileEnumeratorState}
    (h : st.enumerated = true) (walk : List WalkEntry)
    (skip : WalkEntry → Bool) : enumerate st walk skip = st := by
  simp [enumerate, h]

/-- C10: after any successful `enumerate` call (any walk results, any
exclude/include skip predicate — even one skipping every entry), the
`directories` list contains the repository root itself, which is added
unconditionally before the walk and never subjected to the skip
predicate; in particular `directories` is non-empty. -/
theorem enumerate_root_in_directories (repo : String)
    (calls : List (List WalkEntry × (WalkEntry → Bool))) (h : calls ≠ []) :
    (runEnumerate repo calls).enumerated = true ∧
    repo ∈ (runEnumerate repo calls).dirs ∧
    (runEnumerate repo calls).dirs ≠ [] := by
  suffices hstep : ∀ (st : FileEnumeratorState)
      (calls : List (List WalkEntry × (WalkEntry → Bool))),
      st.enumerated = true → st.repo_path = repo → repo ∈ st.dirs →
      calls.foldl (fun st c => enumerate st c.1 c.2) st = st by
    match calls, h with
    | c :: rest, _ =>
        have h1 : (enumerate (initEnumerator repo) c.1 c.2).enumerated = true ∧
            (enumerate (initEnumerator repo) c.1 c.2).repo_path = repo ∧
            repo ∈ (enumerate (initEnumerator repo) c.1 c.2).dirs := by
          rw [enumerate, if_neg (by simp [initEnumerator])]
          refine ⟨rfl, rfl, ?_⟩
          simp only [List.mem_mergeSort, List.mem_dedup, initEnumerator]
          exact List.mem_cons_self _ _
        have hrun : runEnumerate repo (c :: rest) =
            enumerate (initEnumerator repo) c.1 c.2 := by
          rw [runEnumerate, List.foldl_cons]
          exact hstep _ rest h1.1 h1.2.1 h1.2.2
        rw [hrun]
        exact ⟨h1.1, h1.2.2, List.ne_nil_of_mem h1.2.2⟩
  intro st calls hen _hrepo _hmem
  induction calls generalizing st with
  | nil => rfl
  | cons c rest ih =>
      rw [List.foldl_cons, enumerate_of_enumerated hen]
      exact ih st hen _hrepo _hmem

/-- Witness: one `enumerate` call whose skip predicate excludes every
walked entry still leaves the root in `directories`. -/
theorem enumerate_root_in_directories_witness :
    (runEnumerate "/repo"
        [([⟨"/repo/src", true, false⟩, ⟨"/repo/a.py", false, true⟩],
          fun _ => true)]).enumerated = true ∧
    "/repo" ∈ (runEnumerate "/repo"
        [([⟨"/repo/src", true, false⟩, ⟨"/repo/a.py", false, true⟩],
          fun _ => true)]).dirs ∧
    (runEnumerate "/repo"
        [([⟨"/repo/src", true, false⟩, ⟨"/repo/a.py", false, true⟩],
          fun _ => true)]).dirs ≠ [] :=
  enumerate_root_in_directories "/repo"
    [([⟨"/repo/src", true, false⟩, ⟨"/repo/a.py", false, true⟩],
      fun _ => true)] (by simp)

/-! ### NodeTextExtractor (`codebase_rag/node_text_extractor.py`)

The graph reader is not among the provided sources; `getNodeById`,
`getIncomingRelationships` and the loaded-graph shape are modelled from
the spec ("a graph reader" over the exported
`{nodes, relationships, metadata}` document) and the repository tests.
Raised Python exceptions are modelled as `Except.error`; the bounded
Python recursion stack is modelled by fuel, whose exhaustion is Python
`RecursionError`. -/

structure GraphNode where
  node_id : Nat
  labels : List String
  properties : Props
deriving DecidableEq, Repr

structure GraphRel where
  from_id : Nat
  to_id : Nat
  rtype : String
deriving DecidableEq, Repr

structure Graph where
  nodes : List GraphNode
  rels : List GraphRel
deriving DecidableEq, Repr

/-- `LABELS_WITH_LINE_INFO`. -/
def labelsWithLineInfo : List String :=
  ["Function", "Method", "Class", "Interface", "Enum", "Type", "Union"]

/-- `LABELS_WITH_PATH`. -/
def labelsWithPath : List String := ["Module", "File"]

/-- `LABELS_STRUCTURAL`. -/
def labelsStructural : List String :=
  ["Project", "Package", "Folder", "ExternalPackage"]

/-- `NodeTextExtractor._get_node_category`. -/
def getNodeCategory (node : GraphNode) : String :=
  if node.labels.any (fun l => l ∈ labelsWithLineInfo) then "code"
  else if node.labels.any (fun l => l ∈ labelsWithPath) then "file"
  else if node.labels.any (fun l => l ∈ labelsStructural) then "structural"
  else "unknown"

/-- Modelled from the spec: `GraphLoader.get_node_by_id` of the absent
`graph_loader.py` — look a node up by id in the loaded export. -/
def getNodeById (g : Graph) (i : Nat) : Option GraphNode :=
  g.nodes.find? (fun n => n.node_id = i)

/-- Modelled from the spec: `GraphLoader.get_incoming_relationships` of
the absent `graph_loader.py` — all relationships whose target is the
given node, in document order. -/
def getIncomingRelationships (g : Graph) (i : Nat) : List GraphRel :=
  g.rels.filter (fun r => r.to_id = i)

/-- `NodeTextExtractor._find_parent_via_relationship`. -/
def findParentViaRelationship (g : Graph) (node_id : Nat)
    (rel_type : String) : Option GraphNode :=
  match (getIncomingRelationships g node_id).find?
      (fun r => r.rtype = rel_type) with
  | some rel => getNodeById g rel.from_id
  | none => none

/-- `NodeTextExtractor._find_module_for_node`: recursive containment
resolution. Fuel models the bounded Python call stack; running out is
the `RecursionError` an unbounded `DEFINES` cycle raises. -/
def findModuleForNode (g : Graph) :
    Nat → GraphNode → Except String (Option GraphNode)
  | 0, _ => .error "RecursionError: maximum recursion depth exceeded"
  | fuel + 1, node =>
      if node.labels.any (fun l => l ∈ labelsWithPath) then .ok (some node)
      else if "Method" ∈ node.labels then
        match findParentViaRelationship g node.node_id "DEFINES_METHOD" with
        | none => .ok none
        | some class_node => findModuleForNode g fuel class_node
      else if node.labels.any (fun l => l ∈ ["Function", "Class"]) then
        match findParentViaRelationship g node.node_id "DEFINES" with
        | none => .ok none
        | some parent => findModuleForNode g fuel parent
      else .ok none

def pvToStr : PVal → String
  | .s v => v
  | .i v => toString v

/-- `NodeTextExtractor._get_file_path`: `None` when the module node has
no (non-null) `path` property, else the repository-relative path
joined onto the repository base path. -/
def getFilePath (repoBase : String) (m : GraphNode) : Option String :=
  match propsGet m.properties "path" with
  | none => none
  | some none => none
  | some (some v) => some (repoBase ++ "/" ++ pvToStr v)

/-- A file on disk: readable UTF-8 content, or existing but
undecodable/unreadable (where `read_text` raises). -/
inductive FileEntry where
  | readable (content : String)
  | unreadable
deriving DecidableEq, Repr

abbrev FS := List (String × FileEntry)

def fsFind (fs : FS) (p : String) : Option FileEntry :=
  (fs.find? (fun kv => kv.1 = p)).map (fun kv => kv.2)

/-- The extractor's private `_file_cache`: absolute path to cached
content (`None` cached for missing files). -/
abbrev Cache := List (String × Option String)

def cacheLookup (cache : Cache) (p : String) : Option (Option String) :=
  (cache.find? (fun kv => kv.1 = p)).map (fun kv => kv.2)

/-- `NodeTextExtractor._read_file`: serve from cache; else a missing
file caches and returns `None`; else `read_text`, which raises on an
undecodable file and caches on success. -/
def readFileCached (fs : FS) (cache : Cache) (p : String) :
    Except String (Option String × Cache) :=
  match cacheLookup cache p with
  | some v => .ok (v, cache)
  | none =>
      match fsFind fs p with
      | none => .ok (none, cache ++ [(p, none)])
      | some (.readable c) => .ok (some c, cache ++ [(p, some c)])
      | some .unreadable => .error "UnicodeDecodeError: cannot decode file"

/-- The cache-free read outcome of a path (what `_read_file` computes
on a cold cache). -/
def readOutcome (fs : FS) (p : String) : Except String (Option String) :=
  match fsFind fs p with
  | none => .ok none
  | some (.readable c) => .ok (some c)
  | some .unreadable => .error "UnicodeDecodeError: cannot decode file"

/-- Splitting a character list at every newline (the pieces of
`str.split("\n")`). -/
def splitNl : List Char → List String
  | [] => [""]
  | c :: rest =>
      let r := splitNl rest
      if c = '\n' then "" :: r
      else String.mk (c :: (r.headD "").data) :: r.tail

/-- Python `str.splitlines` for `\n`-separated text: the final empty
piece produced by a trailing newline is not a line. -/
def splitlines (s : String) : List String :=
  let parts := splitNl s.data
  if parts.getLast? = some "" then parts.dropLast else parts

/-- Python list slicing `l[a:b]` for integer endpoints (negative
indices count from the end, everything clamped). -/
def pySliceList (l : List String) (a b : Int) : List String :=
  let n : Int := l.length
  let a' := (if a < 0 then max 0 (n + a) else min a n).toNat
  let b' := (if b < 0 then max 0 (n + b) else min b n).toNat
  (l.take b').drop a'

/-- `NodeTextExtractor._extract_lines`: 1-based inclusive line range,
clamped, joined back with newlines. -/
def extractLines (content : String) (start_line end_line : Int) : String :=
  let lines := splitlines content
  let start_idx : Int := max 0 (start_line - 1)
  let end_idx : Int := min (lines.length : Int) end_line
  String.intercalate "\n" (pySliceList lines start_idx end_idx)

/-- `NodeTextResult`. -/
structure NodeTextResult where
  node_id : Nat
  qualified_name : Option String
  file_path : Option String
  start_line : Option Int
  end_line : Option Int
  code_chunk : Option String
  file_content : Option String
  error : Option String := none
deriving DecidableEq, Repr

/-- `int(v) if isinstance(v, int) else None` on a property value. -/
def intProp (p : Props) (k : String) : Option Int :=
  match propsGet p k with
  | some (some (.i n)) => some n
  | _ => none

/-- `isinstance(qualified_name, str)` filter. -/
def strProp (p : Props) (k : String) : Option String :=
  match propsGet p k with
  | some (some (.s v)) => some v
  | _ => none

/-- The error-shaped `NodeTextResult` the extractor returns on each
failure branch: only `qualified_name` (when already computed),
`file_path` (for the unreadable-file branch) and `error` are
populated. -/
def errResult (nid : Nat) (qn : Option String) (fp : Option String)
    (e : String) : NodeTextResult :=
  { node_id := nid, qualified_name := qn, file_path := fp,
    start_line := none, end_line := none, code_chunk := none,
    file_content := none, error := some e }

/-- `NodeTextExtractor.extract`, carrying the mutable file cache;
`Except.error` is a raised exception escaping `extract`. -/
def extractAux (g : Graph) (fs : FS) (repoBase : String) (fuel : Nat)
    (cache : Cache) (nid : Nat) : Except String (NodeTextResult × Cache) :=
  match getNodeById g nid with
  | none =>
      .ok (errResult nid none none
        ("Node with id " ++ toString nid ++ " not found"), cache)
  | some node =>
      let qn_str := strProp node.properties "qualified_name"
      let category := getNodeCategory node
      if category = "structural" then
        .ok (errResult nid qn_str none
          ("Structural node type \x27" ++ node.labels.headD "unknown" ++
            "\x27 has no extractable content"), cache)
      else if category = "unknown" then
        .ok (errResult nid qn_str none
          ("Unknown node type \x27" ++ node.labels.headD "unknown" ++
            "\x27"), cache)
      else
        match findModuleForNode g fuel node with
        | .error e => .error e
        | .ok none =>
            .ok (errResult nid qn_str none
              "Could not find module/file for node", cache)
        | .ok (some module_node) =>
            match getFilePath repoBase module_node with
            | none =>
                .ok (errResult nid qn_str none
                  "Module node has no path property", cache)
            | some file_path =>
                match readFileCached fs cache file_path with
                | .error e => .error e
                | .ok (none, cache₁) =>
                    .ok (errResult nid qn_str (some file_path)
                      ("Could not read file: " ++ file_path), cache₁)
                | .ok (some file_content, cache₁) =>
                    if category = "file" then
                      let r : NodeTextResult :=
                        { node_id := nid, qualified_name := qn_str,
                          file_path := some file_path, start_line := some 1,
                          end_line :=
                            some ((splitlines file_content).length : Int),
                          code_chunk := some file_content,
                          file_content := some file_content }
                      .ok (r, cache₁)
                    else
                      let sl := intProp node.properties "start_line"
                      let el := intProp node.properties "end_line"
                      let r : NodeTextResult :=
                        { node_id := nid, qualified_name := qn_str,
                          file_path := some file_path, start_line := sl,
                          end_line := el,
                          code_chunk :=
                            match sl, el with
                            | some s, some e =>
                                some (extractLines file_content s e)
                            | _, _ => none,
                          file_content := some file_content }
                      .ok (r, cache₁)

/-- The default CPython recursion limit bounding
`_find_module_for_node`. -/
def pyRecursionLimit : Nat := 1000

def extract (g : Graph) (fs : FS) (repoBase : String) (cache : Cache)
    (nid : Nat) : Except String (NodeTextResult × Cache) :=
  extractAux g fs repoBase pyRecursionLimit cache nid

/-- `NodeTextExtractor.extract_batch`: the dict comprehension
`{nid: self.extract(nid) for nid in node_ids}` — sequential extracts
sharing the instance cache; a raised exception aborts the whole
comprehension. -/
def extractBatch (g : Graph) (fs : FS) (repoBase : String) (cache : Cache) :
    List Nat → Except String (List (Nat × NodeTextResult) × Cache)
  | [] => .ok ([], cache)
  | nid :: rest =>
      match extract g fs repoBase cache nid with
      | .error e => .error e
      | .ok (r, cache₁) =>
          match extractBatch g fs repoBase cache₁ rest with
          | .error e => .error e
          | .ok (rs, cache₂) => .ok ((nid, r) :: rs, cache₂)

/-- The single-node extraction algorithm on a cold cache — the
cache-free reference that `extract` refines: identical control flow to
`extractAux`, reading through `readOutcome`. -/
def extractRef (g : Graph) (fs : FS) (repoBase : String) (fuel : Nat)
    (nid : Nat) : Except String NodeTextResult :=
  match getNodeById g nid with
  | none =>
      .ok (errResult nid none none
        ("Node with id " ++ toString nid ++ " not found"))
  | some node =>
      let qn_str := strProp node.properties "qualified_name"
      let category := getNodeCategory node
      if category = "structural" then
        .ok (errResult nid qn_str none
          ("Structural node type \x27" ++ node.labels.headD "unknown" ++
            "\x27 has no extractable content"))
      else if category = "unknown" then
        .ok (errResult nid qn_str none
          ("Unknown node type \x27" ++ node.labels.headD "unknown" ++
            "\x27"))
      else
        match findModuleForNode g fuel node with
        | .error e => .error e
        | .ok none =>
            .ok (errResult nid qn_str none
              "Could not find module/file for node")
        | .ok (some module_node) =>
            match getFilePath repoBase module_node with
            | none =>
                .ok (errResult nid qn_str none
                  "Module node has no path property")
            | some file_path =>
                match readOutcome fs file_path with
                | .error e => .error e
                | .ok none =>
                    .ok (errResult nid qn_str (some file_path)
                      ("Could not read file: " ++ file_path))
                | .ok (some file_content) =>
                    if category = "file" then
                      let r : NodeTextResult :=
                        { node_id := nid, qualified_name := qn_str,
                          file_path := some file_path, start_line := some 1,
                          end_line :=
                            some ((splitlines file_content).length : Int),
                          code_chunk := some file_content,
                          file_content := some file_content }
                      .ok r
                    else
                      let sl := intProp node.properties "start_line"
                      let el := intProp node.properties "end_line"
                      let r : NodeTextResult :=
                        { node_id := nid, qualified_name := qn_str,
                          file_path := some file_path, start_line := sl,
                          end_line := el,
                          code_chunk :=
                            match sl, el with
                            | some s, some e =>
                                some (extractLines file_content s e)
                            | _, _ => none,
                          file_content := some file_content }
                      .ok r

/-- The independent per-id batch over the reference algorithm. -/
def extractBatchRef (g : Graph) (fs : FS) (repoBase : String) (fuel : Nat) :
    List Nat → Except String (List (Nat × NodeTextResult))
  | [] => .ok []
  | nid :: rest =>
      match extractRef g fs repoBase fuel nid with
      | .error e => .error e
      | .ok r =>
          match extractBatchRef g fs repoBase fuel rest with
          | .error e => .error e
          | .ok rs => .ok ((nid, r) :: rs)

/-- A cache is valid for a filesystem when every cached entry is what a
cold read of that path yields. Every cache the extractor ever builds
against an unchanged filesystem is valid. -/
def CacheValid (fs : FS) (cache : Cache) : Prop :=
  ∀ p v, cacheLookup cache p = some v → readOutcome fs p = .ok v

theorem cacheValid_nil (fs : FS) : CacheValid fs [] := by
  intro p v h
  simp [cacheLookup] at h

theorem cacheValid_append {fs : FS} {cache : Cache} {p : String}
    {v : Option String} (h : CacheValid fs cache)
    (hv : readOutcome fs p = .ok v) : CacheValid fs (cache ++ [(p, v)]) := by
  intro q w hq
  rw [cacheLookup, List.find?_append] at hq
  cases hl : cache.find? (fun kv => kv.1 = q) with
  | some kv =>
      rw [hl, Option.or_some] at hq
      cases hq
      exact h q kv.2 (by rw [cacheLookup, hl]; rfl)
  | none =>
      rw [hl, Option.none_or] at hq
      by_cases hpq : p = q
      · have hfind : List.find? (fun kv => kv.1 = q) [(p, v)] = some (p, v) :=
          List.find?_cons_of_pos _ (by simp [hpq])
        rw [hfind] at hq
        have hq' : some v = some w := hq
        cases hq'
        exact hpq ▸ hv
      · have hfind : List.find? (fun kv => kv.1 = q) [(p, v)] = none := by
          rw [List.find?_cons_of_neg _ (by simpa using hpq), List.find?_nil]
        rw [hfind] at hq
        simp at hq

theorem readFileCached_ref {fs : FS} {cache : Cache} (p : String)
    (h : CacheValid fs cache) :
    ∃ cache', readFileCached fs cache p =
        (readOutcome fs p).map (fun v => (v, cache')) ∧
      CacheValid fs cache' := by
  rw [readFileCached]
  cases hl : cacheLookup cache p with
  | some v =>
      refine ⟨cache, ?_, h⟩
      rw [h p v hl]
      rfl
  | none =>
      rw [readOutcome]
      cases hf : fsFind fs p with
      | none =>
          exact ⟨cache ++ [(p, none)], rfl,
            cacheValid_append h (by rw [readOutcome, hf])⟩
      | some entry =>
          cases entry with
          | readable c =>
              exact ⟨cache ++ [(p, some c)], rfl,
                cacheValid_append h (by rw [readOutcome, hf])⟩
          | unreadable => exact ⟨cache, rfl, h⟩

/-- Cache transparency: against a valid cache, `extract` computes the
cache-free reference result and leaves a valid cache — so prior
extractions (any cache state) never change what a node id yields. -/
theorem extractAux_ref (g : Graph) (fs : FS) (repoBase : String)
    (fuel : Nat) (cache : Cache) (nid : Nat) (h : CacheValid fs cache) :
    ∃ cache', extractAux g fs repoBase fuel cache nid =
        (extractRef g fs repoBase fuel nid).map (fun r => (r, cache')) ∧
      CacheValid fs cache' := by
  rw [extractAux, extractRef]
  cases getNodeById g nid with
  | none => exact ⟨cache, rfl, h⟩
  | some node =>
      dsimp only
      split
      · exact ⟨cache, rfl, h⟩
      · split
        · exact ⟨cache, rfl, h⟩
        · cases findModuleForNode g fuel node with
          | error e => exact ⟨cache, rfl, h⟩
          | ok mo =>
              cases mo with
              | none => exact ⟨cache, rfl, h⟩
              | some module_node =>
                  dsimp only
                  cases getFilePath repoBase module_node with
                  | none => exact ⟨cache, rfl, h⟩
                  | some file_path =>
                      obtain ⟨cache', hrw, hvalid⟩ :=
                        readFileCached_ref file_path h
                      refine ⟨cache', ?_, hvalid⟩
                      simp only [hrw]
                      cases hro : readOutcome fs file_path with
                      | error e => rfl
                      | ok v =>
                          cases v with
                          | none => rfl
                          | some file_content =>
                              by_cases hcat : getNodeCategory node = "file"
                              · simp [hcat, Except.map]
                              · simp [hcat, Except.map]

/-- Batch transparency: against a valid cache, the dict comprehension
of `extract_batch` computes, id by id, exactly the independent
reference results. -/
theorem extractBatch_ref (g : Graph) (fs : FS) (repoBase : String)
    (ids : List Nat) : ∀ cache, CacheValid fs cache →
    ∃ cache', extractBatch g fs repoBase cache ids =
        (extractBatchRef g fs repoBase pyRecursionLimit ids).map
          (fun rs => (rs, cache')) ∧
      CacheValid fs cache' := by
  induction ids with
  | nil => intro cache h; exact ⟨cache, rfl, h⟩
  | cons nid rest ih =>
      intro cache h
      obtain ⟨cache₁, h1, hv1⟩ :=
        extractAux_ref g fs repoBase pyRecursionLimit cache nid h
      rw [extractBatch, extractBatchRef, extract, h1]
      cases hr : extractRef g fs repoBase pyRecursionLimit nid with
      | error e => exact ⟨cache₁, rfl, hv1⟩
      | ok r =>
          obtain ⟨cache₂, h2, hv2⟩ := ih cache₁ hv1
          simp only [Except.map]
          rw [h2]
          cases hb : extractBatchRef g fs repoBase pyRecursionLimit rest with
          | error e => exact ⟨cache₂, rfl, hv2⟩
          | ok rs => exact ⟨cache₂, rfl, hv2⟩

/-- No file of the repository tree is undecodable — the condition under
which `read_text` never raises. -/
def FsReadable (fs : FS) : Prop := ∀ kv ∈ fs, kv.2 ≠ FileEntry.unreadable

/-- Containment resolution succeeds (possibly with "no module") within
the recursion budget for every node — true of every acyclic graph, in
particular every graph the exporter produces. -/
def FindModuleTotal (g : Graph) (fuel : Nat) : Prop :=
  ∀ n ∈ g.nodes, (findModuleForNode g fuel n).isOk = true

/-- The documented error taxonomy of `NodeTextExtractor.extract`. -/
def TaxonomyError (e : String) : Prop :=
  (∃ n : Nat, e = "Node with id " ++ toString n ++ " not found") ∨
  (∃ t, e = "Structural node type \x27" ++ t ++
    "\x27 has no extractable content") ∨
  (∃ t, e = "Unknown node type \x27" ++ t ++ "\x27") ∨
  e = "Could not find module/file for node" ∨
  e = "Module node has no path property" ∨
  (∃ p, e = "Could not read file: " ++ p)

theorem readOutcome_ok {fs : FS} (h : FsReadable fs) (p : String) :
    ∃ v, readOutcome fs p = .ok v := by
  rw [readOutcome]
  cases hf : fsFind fs p with
  | none => exact ⟨none, rfl⟩
  | some entry =>
      cases entry with
      | readable c => exact ⟨some c, rfl⟩
      | unreadable =>
          exfalso
          rw [fsFind] at hf
          cases hfind : fs.find? (fun kv => kv.1 = p) with
          | none => rw [hfind] at hf; simp at hf
          | some kv =>
              rw [hfind] at hf
              have hkv : kv.2 = FileEntry.unreadable := by
                have heq : some kv.2 = some FileEntry.unreadable := hf
                exact Option.some.inj heq
              exact h kv (List.mem_of_find?_eq_some hfind) hkv

/-- Every reference extraction under a readable filesystem and a
within-budget containment resolution returns a result whose `error`
field is `none` or one of the six taxonomy messages. -/
theorem extractRef_no_raise (g : Graph) (fs : FS) (repoBase : String)
    (fuel : Nat) (nid : Nat) (hfs : FsReadable fs)
    (hfm : FindModuleTotal g fuel) :
    ∃ r, extractRef g fs repoBase fuel nid = .ok r ∧
      (r.error = none ∨ ∃ e, r.error = some e ∧ TaxonomyError e) := by
  rw [extractRef]
  cases hn : getNodeById g nid with
  | none =>
      exact ⟨_, rfl, Or.inr ⟨_, rfl, Or.inl ⟨nid, rfl⟩⟩⟩
  | some node =>
      dsimp only
      split
      · exact ⟨_, rfl, Or.inr ⟨_, rfl, Or.inr (Or.inl ⟨_, rfl⟩)⟩⟩
      · split
        · exact ⟨_, rfl, Or.inr ⟨_, rfl, Or.inr (Or.inr (Or.inl ⟨_, rfl⟩))⟩⟩
        · have hmem : node ∈ g.nodes := by
            rw [getNodeById] at hn
            exact List.mem_of_find?_eq_some hn
          have hok := hfm node hmem
          cases hf : findModuleForNode g fuel node with
          | error e => rw [hf] at hok; simp [Except.isOk, Except.toBool] at hok
          | ok mo =>
              cases mo with
              | none =>
                  exact ⟨_, rfl, Or.inr ⟨_, rfl,
                    Or.inr (Or.inr (Or.inr (Or.inl rfl)))⟩⟩
              | some module_node =>
                  dsimp only
                  cases getFilePath repoBase module_node with
                  | none =>
                      exact ⟨_, rfl, Or.inr ⟨_, rfl,
                        Or.inr (Or.inr (Or.inr (Or.inr (Or.inl rfl))))⟩⟩
                  | some file_path =>
                      obtain ⟨v, hro⟩ := readOutcome_ok hfs file_path
                      simp only [hro]
                      cases v with
                      | none =>
                          exact ⟨_, rfl, Or.inr ⟨_, rfl,
                            Or.inr (Or.inr (Or.inr (Or.inr
                              (Or.inr ⟨file_path, rfl⟩))))⟩⟩
                      | some file_content =>
                          by_cases hcat : getNodeCategory node = "file"
                          · simp only [if_pos hcat]
                            exact ⟨_, rfl, Or.inl rfl⟩
                          · simp only [if_neg hcat]
                            exact ⟨_, rfl, Or.inl rfl⟩

def c6Graph : Graph :=
  { nodes := [⟨1, ["Module"],
      [("qualified_name", some (.s "proj.bad")),
       ("path", some (.s "bad.py"))]⟩],
    rels := [] }

/-- C6 counterexample: a module whose file exists but cannot be
UTF-8-decoded — `_read_file` only guards `exists()`, so `read_text`
raises and the exception escapes `extract` instead of being returned
in the `error` field. -/
theorem extract_raises_on_undecodable_file :
    extract c6Graph [("repo/bad.py", FileEntry.unreadable)] "repo" [] 1 =
      .error "UnicodeDecodeError: cannot decode file" := rfl

/-- C6 (amended): for every graph whose containment chains resolve
within the recursion budget (every acyclic graph, in particular every
exporter-produced one), every filesystem without undecodable files,
and every cache state the extractor can have built: `extract` returns
a `NodeTextResult` whose `error` field is `none` or one of the six
taxonomy messages, without raising; and `extract_batch` computes, per
id, exactly the independent single-node reference result, so no id's
outcome affects another's. An existing-but-undecodable file or an
unbounded `DEFINES` cycle raises instead. -/
theorem extract_failures_returned (g : Graph) (fs : FS) (repoBase : String)
    (cache : Cache) (hfs : FsReadable fs)
    (hfm : FindModuleTotal g pyRecursionLimit) (hc : CacheValid fs cache) :
    (∀ nid, ∃ r cache', extract g fs repoBase cache nid = .ok (r, cache') ∧
      (r.error = none ∨ ∃ e, r.error = some e ∧ TaxonomyError e)) ∧
    (∀ ids, ∃ cache', extractBatch g fs repoBase cache ids =
      (extractBatchRef g fs repoBase pyRecursionLimit ids).map
        (fun rs => (rs, cache'))) := by
  constructor
  · intro nid
    obtain ⟨cache', hrw, _⟩ :=
      extractAux_ref g fs repoBase pyRecursionLimit cache nid hc
    obtain ⟨r, hr, htax⟩ :=
      extractRef_no_raise g fs repoBase pyRecursionLimit nid hfs hfm
    refine ⟨r, cache', ?_, htax⟩
    rw [extract, hrw, hr]
    rfl
  · intro ids
    obtain ⟨cache', hbatch, _⟩ := extractBatch_ref g fs repoBase ids cache hc
    exact ⟨cache', hbatch⟩

def c6WGraph : Graph :=
  { nodes := [⟨0, ["Function"], [("qualified_name", some (.s "m.f"))]⟩],
    rels := [] }

/-- Witness: a function node with no `DEFINES` parent — extraction
returns the could-not-find-module taxonomy error without raising. -/
theorem extract_failures_returned_witness :
    ∃ r cache', extract c6WGraph [] "repo" [] 0 = .ok (r, cache') ∧
      (r.error = none ∨ ∃ e, r.error = some e ∧ TaxonomyError e) :=
  (extract_failures_returned c6WGraph [] "repo" []
    (by intro kv h; simp at h) (by unfold FindModuleTotal; decide)
    (cacheValid_nil [])).1 0

/-! ### C9: missing or non-integer line range is not an error -/

/-- C9: for a code-category node (`Function`, `Method`, `Class`,
`Interface`, `Enum`, `Type`, `Union`) whose owning file is found and
reads successfully, a `start_line` or `end_line` property that is
missing or not an `int` yields `code_chunk = none` with `error = none`
— `file_path` and `file_content` still populated. -/
theorem extract_missing_line_range_no_error (g : Graph) (fs : FS)
    (repoBase : String) (cache : Cache) (nid : Nat) (node : GraphNode)
    (module_node : GraphNode) (file_path : String) (file_content : String)
    (cache₁ : Cache)
    (h1 : getNodeById g nid = some node)
    (h2 : node.labels.any (fun l => l ∈ labelsWithLineInfo) = true)
    (h3 : findModuleForNode g pyRecursionLimit node = .ok (some module_node))
    (h4 : getFilePath repoBase module_node = some file_path)
    (h5 : readFileCached fs cache file_path = .ok (some file_content, cache₁))
    (h6 : intProp node.properties "start_line" = none ∨
      intProp node.properties "end_line" = none) :
    extract g fs repoBase cache nid =
      .ok ({ node_id := nid,
             qualified_name := strProp node.properties "qualified_name",
             file_path := some file_path,
             start_line := intProp node.properties "start_line",
             end_line := intProp node.properties "end_line",
             code_chunk := none,
             file_content := some file_content }, cache₁) := by
  have hcat : getNodeCategory node = "code" := by
    rw [getNodeCategory, if_pos h2]
  rw [extract, extractAux]
  simp only [h1, hcat, h3, h4, h5]
  rcases h6 with hs | he
  · simp [hs]
  · simp [he]

def c9Fn : GraphNode :=
  ⟨2, ["Function"],
   [("qualified_name", some (.s "proj.m.f")),
    ("start_line", some (.s "not-an-int"))]⟩

def c9Mod : GraphNode :=
  ⟨1, ["Module"],
   [("qualified_name", some (.s "proj.m")), ("path", some (.s "m.py"))]⟩

def c9Graph : Graph :=
  { nodes := [c9Mod, c9Fn],
    rels := [{ from_id := 1, to_id := 2, rtype := "DEFINES" }] }

def c9FS : FS := [("repo/m.py", .readable "def f():\n    pass\n")]

/-- Witness: a function whose `start_line` is a string — extraction
succeeds with no code chunk and no error. -/
theorem extract_missing_line_range_no_error_witness :
    extract c9Graph c9FS "repo" [] 2 =
      .ok ({ node_id := 2,
             qualified_name := strProp c9Fn.properties "qualified_name",
             file_path := some "repo/m.py",
             start_line := intProp c9Fn.properties "start_line",
             end_line := intProp c9Fn.properties "end_line",
             code_chunk := none,
             file_content := some "def f():\n    pass\n" },
        [("repo/m.py", some "def f():\n    pass\n")]) :=
  extract_missing_line_range_no_error c9Graph c9FS "repo" [] 2 c9Fn c9Mod
    "repo/m.py" "def f():\n    pass\n"
    [("repo/m.py", some "def f():\n    pass\n")]
    (by decide) (by decide) (by rfl) (by decide) (by rfl)
    (Or.inl (by decide))

/-! ### C5: nested-scope round trip (§8 scenario) -/

def c5Content : String :=
  "def outer_function():\n    x = 1\n\n    def inner_function():\n        y = 2\n        return y\n\n    def deeply_nested():\n        def level3():\n            z = 3\n            return z\n        return level3()\n\n    return inner_function() + deeply_nested()\n"

def c5Graph : Graph :=
  { nodes :=
      [⟨1, ["Module"],
        [("qualified_name", some (.s "module")),
         ("path", some (.s "nested.py"))]⟩,
       ⟨2, ["Function"],
        [("qualified_name", some (.s "module.outer_function")),
         ("start_line", some (.i 1)), ("end_line", some (.i 15))]⟩,
       ⟨3, ["Function"],
        [("qualified_name",
          some (.s "module.outer_function.inner_function")),
         ("start_line", some (.i 4)), ("end_line", some (.i 6))]⟩,
       ⟨4, ["Function"],
        [("qualified_name",
          some (.s "module.outer_function.deeply_nested")),
         ("start_line", some (.i 8)), ("end_line", some (.i 12))]⟩,
       ⟨5, ["Function"],
        [("qualified_name",
          some (.s "module.outer_function.deeply_nested.level3")),
         ("start_line", some (.i 9)), ("end_line", some (.i 11))]⟩],
    rels :=
      [{ from_id := 1, to_id := 2, rtype := "DEFINES" },
       { from_id := 2, to_id := 3, rtype := "DEFINES" },
       { from_id := 2, to_id := 4, rtype := "DEFINES" },
       { from_id := 4, to_id := 5, rtype := "DEFINES" }] }

def c5FS : FS := [("repo/nested.py", .readable c5Content)]

def c5Level3 : NodeTextResult :=
  { node_id := 5,
    qualified_name := some "module.outer_function.deeply_nested.level3",
    file_path := some "repo/nested.py", start_line := some 9,
    end_line := some 11,
    code_chunk :=
      some "        def level3():\n            z = 3\n            return z",
    file_content := some c5Content }

def c5Inner : NodeTextResult :=
  { node_id := 3,
    qualified_name := some "module.outer_function.inner_function",
    file_path := some "repo/nested.py", start_line := some 4,
    end_line := some 6,
    code_chunk :=
      some "    def inner_function():\n        y = 2\n        return y",
    file_content := some c5Content }

def c5Deeply : NodeTextResult :=
  { node_id := 4,
    qualified_name := some "module.outer_function.deeply_nested",
    file_path := some "repo/nested.py", start_line := some 8,
    end_line := some 12,
    code_chunk :=
      some "    def deeply_nested():\n        def level3():\n            z = 3\n            return z\n        return level3()",
    file_content := some c5Content }

def c5Outer : NodeTextResult :=
  { node_id := 2,
    qualified_name := some "module.outer_function",
    file_path := some "repo/nested.py", start_line := some 1,
    end_line := some 15,
    code_chunk :=
      some "def outer_function():\n    x = 1\n\n    def inner_function():\n        y = 2\n        return y\n\n    def deeply_nested():\n        def level3():\n            z = 3\n            return z\n        return level3()\n\n    return inner_function() + deeply_nested()",
    file_content := some c5Content }

set_option maxRecDepth 40000

/-- C5: in the §8 scenario graph (module defines `outer_function`;
`outer_function` defines `inner_function` (4–6) and `deeply_nested`
(8–12); `deeply_nested` defines `level3` (9–11)), extraction of
`level3` returns qualified name
`module.outer_function.deeply_nested.level3` and exactly lines 9–11 of
the source — and the `DEFINES` containment recursion reaches the
file-category node at nesting depths 1 (`outer_function`), 2
(`inner_function`, `deeply_nested`) and 3 (`level3`) — for every prior
cache state the extractor can be in, hence regardless of extraction
order. -/
theorem nested_scope_round_trip (cache : Cache)
    (hc : CacheValid c5FS cache) :
    (∃ cache', extract c5Graph c5FS "repo" cache 5 =
      .ok (c5Level3, cache')) ∧
    (∃ cache', extract c5Graph c5FS "repo" cache 3 =
      .ok (c5Inner, cache')) ∧
    (∃ cache', extract c5Graph c5FS "repo" cache 4 =
      .ok (c5Deeply, cache')) ∧
    (∃ cache', extract c5Graph c5FS "repo" cache 2 =
      .ok (c5Outer, cache')) := by
  refine ⟨?_, ?_, ?_, ?_⟩
  · obtain ⟨cache', hrw, _⟩ :=
      extractAux_ref c5Graph c5FS "repo" pyRecursionLimit cache 5 hc
    exact ⟨cache', by rw [extract, hrw]; rfl⟩
  · obtain ⟨cache', hrw, _⟩ :=
      extractAux_ref c5Graph c5FS "repo" pyRecursionLimit cache 3 hc
    exact ⟨cache', by rw [extract, hrw]; rfl⟩
  · obtain ⟨cache', hrw, _⟩ :=
      extractAux_ref c5Graph c5FS "repo" pyRecursionLimit cache 4 hc
    exact ⟨cache', by rw [extract, hrw]; rfl⟩
  · obtain ⟨cache', hrw, _⟩ :=
      extractAux_ref c5Graph c5FS "repo" pyRecursionLimit cache 2 hc
    exact ⟨cache', by rw [extract, hrw]; rfl⟩

/-- Witness: the round trip on a fresh extractor (empty cache). -/
theorem nested_scope_round_trip_witness :
    (∃ cache', extract c5Graph c5FS "repo" [] 5 =
      .ok (c5Level3, cache')) ∧
    (∃ cache', extract c5Graph c5FS "repo" [] 3 =
      .ok (c5Inner, cache')) ∧
    (∃ cache', extract c5Graph c5FS "repo" [] 4 =
      .ok (c5Deeply, cache')) ∧
    (∃ cache', extract c5Graph c5FS "repo" [] 2 =
      .ok (c5Outer, cache')) :=
  nested_scope_round_trip [] (cacheValid_nil c5FS)

end CodebaseRag
